import Mathlib

/-!
Shallow embedding of the ANL Team 16 negotiation agent
(`src/agents/group16_agent/`): the opponent-preference estimator
(`utils/opponent_model.py`) and the negotiation policy
(`group16_agent.py`), together with theorems settling the spec claims.

Conventions of the embedding:
* Python floats are idealised as exact numbers: `ℚ` wherever the code only
  adds, multiplies, divides and compares (every IEEE float is a rational, so
  quantifying over `ℚ` covers every reachable float state), and `ℝ` where the
  code uses `**` with a real exponent (`ValueEstimator.recalculate_utility`).
* A `Bid` is a total assignment of one discrete value to every issue; issues
  are indexed positionally, so a domain is the list of its issues' value-set
  sizes and a bid is a list of value indices (`getValue bid i` is the value
  the bid assigns to issue `i`).
* Python's `ZeroDivisionError` is modelled by returning `none`:
  `IssueEstimator.update` divides by `bids_received - equal_shares`
  (zero exactly when `num_values = 1`) and by `num_values` with no guard,
  so it returns an `Option`.  Divisions the code can never reach with a zero
  denominator stay total (Lean's `x / 0 = 0` convention).
* `random.choice` / `random.randint` are modelled by an externally supplied
  pick, reduced modulo the size of the collection being drawn from.
-/

/-- A bid assigns the value `bid[i]` (an index into issue `i`'s value set)
to every issue `i`; issues beyond the list length read as value `0`. -/
abbrev Bid := List ℕ

def getValue (bid : Bid) (i : ℕ) : ℕ := bid.getD i 0

/-- `value_set.size()` per issue: a domain is the list of value-set sizes. -/
def BidWf (sizes : List ℕ) (bid : Bid) : Prop :=
  ∀ i, i < sizes.length → getValue bid i < sizes.getD i 0

instance (sizes : List ℕ) (bid : Bid) : Decidable (BidWf sizes bid) := by
  unfold BidWf; infer_instance

/-- `ValueEstimator.__init__`: `count = 0`, `utility = 0`. -/
structure ValueEstimator where
  count : ℕ
  utility : ℝ

def ValueEstimator.init : ValueEstimator := ⟨0, 0⟩

/-- `ValueEstimator.recalculate_utility`: when `weight < 1`,
`utility = ((count+1)^(1-weight) - 1) / ((max_value_count+1)^(1-weight) - 1)`,
otherwise `utility = 1` (the branch that avoids the 0/0 of the formula). -/
noncomputable def ValueEstimator.recalculate_utility (t : ValueEstimator)
    (max_value_count : ℕ) (weight : ℚ) : ValueEstimator :=
  if weight < 1 then
    ⟨t.count,
      (((t.count : ℝ) + 1) ^ ((1 : ℝ) - (weight : ℝ)) - 1) /
        (((max_value_count : ℝ) + 1) ^ ((1 : ℝ) - (weight : ℝ)) - 1)⟩
  else
    ⟨t.count, 1⟩

/-- `IssueEstimator` state: `value_trackers` is the (insertion-ordered)
association list behind the Python `defaultdict(ValueEstimator)`. -/
structure IssueEstimator where
  bids_received : ℕ
  max_value_count : ℕ
  num_values : ℕ
  value_trackers : List (ℕ × ValueEstimator)
  weight : ℚ

def IssueEstimator.init (num_values : ℕ) : IssueEstimator :=
  ⟨0, 0, num_values, [], 0⟩

/-- Lookup in the tracker association list (`value in self.value_trackers`). -/
def lookupTracker (v : ℕ) : List (ℕ × ValueEstimator) → Option ValueEstimator
  | [] => none
  | (k, t) :: rest => if k = v then some t else lookupTracker v rest

/-- `self.value_trackers[value]` followed by `value_tracker.update()`:
the defaultdict creates a fresh tracker (count 0) on a miss and the update
increments its count. -/
def bumpTrackers (v : ℕ) : List (ℕ × ValueEstimator) → List (ℕ × ValueEstimator)
  | [] => [(v, ⟨1, 0⟩)]
  | (k, t) :: rest =>
    if k = v then (k, ⟨t.count + 1, t.utility⟩) :: rest
    else (k, t) :: bumpTrackers v rest

/-- The count currently tracked for value `v` (0 when never observed). -/
def cntOf (v : ℕ) (ts : List (ℕ × ValueEstimator)) : ℕ :=
  match lookupTracker v ts with
  | some t => t.count
  | none => 0

/-- `IssueEstimator.update(value)`.  Returns `none` where Python raises
`ZeroDivisionError`: at `bids_received / num_values` when `num_values = 0`,
and at the weight formula when `bids_received - equal_shares = 0`. -/
noncomputable def IssueEstimator.update (e : IssueEstimator) (v : ℕ) :
    Option IssueEstimator :=
  let bids_received := e.bids_received + 1
  let value_trackers := bumpTrackers v e.value_trackers
  let max_value_count := max (cntOf v value_trackers) e.max_value_count
  if (e.num_values : ℚ) = 0 then none
  else
    let equal_shares : ℚ := (bids_received : ℚ) / (e.num_values : ℚ)
    if (bids_received : ℚ) - equal_shares = 0 then none
    else
      let weight : ℚ :=
        ((max_value_count : ℚ) - equal_shares) / ((bids_received : ℚ) - equal_shares)
      some ⟨bids_received, max_value_count, e.num_values,
        value_trackers.map (fun p => (p.1, p.2.recalculate_utility max_value_count weight)),
        weight⟩

/-- `IssueEstimator.get_value_utility(value)`: tracked utility, or 0 when
the value was never observed. -/
def IssueEstimator.get_value_utility (e : IssueEstimator) (v : ℕ) : ℝ :=
  match lookupTracker v e.value_trackers with
  | some t => t.utility
  | none => 0

/-- Feeding a sequence of observed values through one issue estimator. -/
noncomputable def runEstimator (e : IssueEstimator) : List ℕ → Option IssueEstimator
  | [] => some e
  | v :: vs =>
    match e.update v with
    | none => none
    | some e' => runEstimator e' vs

/-- `OpponentModel` state (`opponent_model.py`, `__init__`). -/
structure OpponentModel where
  offers : List Bid
  best_bid_for_us : Option Bid
  best_bid_utility : ℚ
  issue_estimators : List IssueEstimator
  bid_count : ℕ
  concession_rate : ℝ
  repeated_bids : List (Bid × ℕ)
  force_accept_at_remaining_turns : ℚ
  force_accept_at_remaining_turns_light : ℚ
  top_bids_percentage : ℚ
  opponent_utilities : List ℝ

def OpponentModel.init (sizes : List ℕ) : OpponentModel :=
  ⟨[], none, 0, sizes.map IssueEstimator.init, 0, 0, [], 1, 1, 1 / 300, []⟩

/-- `self.repeated_bids[str(bid)] += 1` on the association list behind the
`defaultdict(int)` (`str` is injective on bids, so bids key it directly). -/
def bumpRepeated (b : Bid) : List (Bid × ℕ) → List (Bid × ℕ)
  | [] => [(b, 1)]
  | (k, c) :: rest =>
    if k = b then (k, c + 1) :: rest else (k, c) :: bumpRepeated b rest

/-- The per-issue `get_value_utility` samples collected by
`get_predicted_utility`'s loop, in issue order starting at index `i`. -/
def valueUtilities (bid : Bid) : List IssueEstimator → ℕ → List ℝ
  | [], _ => []
  | e :: rest, i => e.get_value_utility (getValue bid i) :: valueUtilities bid rest (i + 1)

/-- The issue-weight normalisation inside `get_predicted_utility`: divide by
the total weight, or split equally when the total is 0.  (The equal split
`1 / len(issue_weights)` sits inside a list comprehension, so Python never
divides by a zero length.) -/
def OpponentModel.normalizedWeights (m : OpponentModel) : List ℚ :=
  let issue_weights := m.issue_estimators.map (·.weight)
  let total_issue_weight := issue_weights.sum
  if total_issue_weight = 0 then
    issue_weights.map (fun _ => 1 / (issue_weights.length : ℚ))
  else
    issue_weights.map (fun iw => iw / total_issue_weight)

/-- `OpponentModel.get_predicted_utility(bid)`: 0 before any offer, else the
normalised-weight weighted sum of per-issue value utilities. -/
noncomputable def OpponentModel.get_predicted_utility (m : OpponentModel) (bid : Bid) : ℝ :=
  if m.offers.length = 0 then 0
  else
    (List.zipWith (fun (iw : ℚ) (vu : ℝ) => (iw : ℝ) * vu)
      m.normalizedWeights (valueUtilities bid m.issue_estimators 0)).sum

open Classical in
/-- The strictly positive consecutive decreases of a utility history
(`diff = utilities[i-1] - utilities[i]` kept when `diff > 0`). -/
noncomputable def utilityDecreases : List ℝ → List ℝ
  | a :: b :: rest => (if a - b > 0 then [a - b] else []) ++ utilityDecreases (b :: rest)
  | _ => []

/-- `issue_estimator.update(bid.getValue(issue_id))` over all issues, issue
`i` onwards; `none` as soon as one estimator update raises. -/
noncomputable def updateEstimators (bid : Bid) :
    List IssueEstimator → ℕ → Option (List IssueEstimator)
  | [], _ => some []
  | e :: rest, i =>
    match e.update (getValue bid i) with
    | none => none
    | some e' =>
      match updateEstimators bid rest (i + 1) with
      | none => none
      | some rest' => some (e' :: rest')

/-- `OpponentModel.update(bid, our_utility)`. -/
noncomputable def OpponentModel.update (m : OpponentModel) (bid : Bid)
    (our_utility : Option ℚ) : Option OpponentModel :=
  match updateEstimators bid m.issue_estimators 0 with
  | none => none
  | some ests' =>
    let newBest : Option Bid × ℚ :=
      match our_utility with
      | none => (m.best_bid_for_us, m.best_bid_utility)
      | some u =>
        match m.best_bid_for_us with
        | none => (some bid, u)
        | some bb => if u > m.best_bid_utility then (some bid, u) else (some bb, m.best_bid_utility)
    let m1 : OpponentModel :=
      ⟨m.offers ++ [bid], newBest.1, newBest.2, ests', m.bid_count + 1,
        m.concession_rate, bumpRepeated bid m.repeated_bids,
        m.force_accept_at_remaining_turns, m.force_accept_at_remaining_turns_light,
        m.top_bids_percentage, m.opponent_utilities⟩
    let opponent_utility := m1.get_predicted_utility bid
    let opponent_utilities := m.opponent_utilities ++ [opponent_utility]
    let rate : ℝ :=
      if 2 ≤ opponent_utilities.length then
        match utilityDecreases opponent_utilities with
        | [] => m.concession_rate
        | d :: ds => ((d :: ds).sum) / (((d :: ds).length : ℕ) : ℝ)
      else m.concession_rate
    some { m1 with opponent_utilities := opponent_utilities, concession_rate := rate }

/-- A whole sequence of `update` calls, each paired with the optional
`our_utility` argument. -/
noncomputable def runModel (m : OpponentModel) : List (Bid × Option ℚ) → Option OpponentModel
  | [] => some m
  | p :: ps =>
    match m.update p.1 p.2 with
    | none => none
    | some m' => runModel m' ps

open Classical in
/-- `OpponentModel.get_opponent_type()`. -/
noncomputable def OpponentModel.get_opponent_type (m : OpponentModel) : String :=
  if m.bid_count < 3 then "UNKNOWN"
  else if m.concession_rate < 0.02 ∨
      ((m.repeated_bids.length : ℚ) / (m.bid_count : ℚ)) < 0.5 then "HARDHEADED"
  else if m.concession_rate > 0.05 then "CONCEDER"
  else "NEUTRAL"

def hard_accept_levels : List ℚ := [0, 0, 1, 1.1]

def soft_accept_levels : List ℚ := [0, 1, 1.1]

def top_bids_levels : List ℚ := [1 / 300, 1 / 100, 1 / 30]

/-- Sessions persisted by `wrapper.create_and_save_session_data` always carry
`utilityAtFinish`; a session is modelled by that number. -/
def failedSessionsCount (sessions : List ℚ) : ℕ :=
  (sessions.filter (fun u => u = 0)).length

def lowUtilitySessionsCount (sessions : List ℚ) : ℕ :=
  (sessions.filter (fun u => u < 0.5)).length

/-- `OpponentModel.learn_from_past_sessions(sessions)`: counts failed
(`utilityAtFinish == 0`) and low-utility (`< 0.5`) sessions, clamps each
count to its staircase table, and sets the three policy knobs. -/
def OpponentModel.learn_from_past_sessions (m : OpponentModel) (sessions : List ℚ) :
    OpponentModel :=
  let failed_sessions_count := failedSessionsCount sessions
  let low_utility_sessions_count := lowUtilitySessionsCount sessions
  let accept_index :=
    if hard_accept_levels.length ≤ failed_sessions_count then hard_accept_levels.length - 1
    else failed_sessions_count
  let light_accept_index :=
    if soft_accept_levels.length ≤ failed_sessions_count then soft_accept_levels.length - 1
    else failed_sessions_count
  let top_bids_index :=
    if top_bids_levels.length ≤ low_utility_sessions_count then top_bids_levels.length - 1
    else low_utility_sessions_count
  { m with
    force_accept_at_remaining_turns := hard_accept_levels.getD accept_index 0,
    force_accept_at_remaining_turns_light := soft_accept_levels.getD light_accept_index 0,
    top_bids_percentage := top_bids_levels.getD top_bids_index 0 }

/-- The agent fields (`group16_agent.py`, `__init__`) that the decision core
reads, over an abstract bid type `β`.  `util` is the own-utility oracle
(`self.profile.getUtility`), `duration` is `self.progress.getDuration()`. -/
structure AgentState (β : Type) where
  util : β → ℚ
  best_bid : Option β
  opponent_utility_variance : ℚ
  concession_rate : ℚ
  avg_time_per_round : Option ℚ
  duration : ℚ
  force_accept_at_remaining_turns : ℚ
  force_accept_at_remaining_turns_light : ℚ
  top_bids_percentage : ℚ
  max_target_utility : ℚ
  min_target_utility : ℚ
  round_count : ℕ
  bids_with_utilities : Option (List (β × ℚ))
  all_bids : List β

/-- The `concession_factor` chosen by `calculate_target_utility`'s branches. -/
def concession_factor {β : Type} (s : AgentState β) : ℚ :=
  if s.opponent_utility_variance < 0.01 ∨ s.concession_rate < 0.02 then 1.1
  else if s.opponent_utility_variance > 0.03 ∨ s.concession_rate > 0.05 then 0.8
  else 1

/-- The adaptively nudged `umin` of `calculate_target_utility`'s branches. -/
def adjusted_umin {β : Type} (s : AgentState β) : ℚ :=
  if s.opponent_utility_variance < 0.01 ∨ s.concession_rate < 0.02 then
    max 0.65 (s.min_target_utility - 0.05)
  else if s.opponent_utility_variance > 0.03 ∨ s.concession_rate > 0.05 then
    min 0.85 (s.min_target_utility + 0.05)
  else s.min_target_utility

/-- `Group16Agent.calculate_target_utility(progress)`:
`max(umax - (umax - umin) * progress * concession_factor, umin)` with the
branch-adjusted `umin`. -/
def calculate_target_utility {β : Type} (s : AgentState β) (progress : ℚ) : ℚ :=
  max (s.max_target_utility -
        (s.max_target_utility - adjusted_umin s) * progress * concession_factor s)
    (adjusted_umin s)

/-- `threshold` of `accept_condition` (0.98 until `avg_time_per_round` has a
value). -/
def hardThreshold {β : Type} (s : AgentState β) : ℚ :=
  match s.avg_time_per_round with
  | none => 0.98
  | some avg => 1 - 1000 * s.force_accept_at_remaining_turns * avg / s.duration

/-- `light_threshold` of `accept_condition` and `find_bid` (0.95 until
`avg_time_per_round` has a value). -/
def lightThreshold {β : Type} (s : AgentState β) : ℚ :=
  match s.avg_time_per_round with
  | none => 0.95
  | some avg => 1 - 5000 * s.force_accept_at_remaining_turns_light * avg / s.duration

/-- `Group16Agent.accept_condition(bid)`: the decision (`any(conditions)`)
together with the post-call agent state — the method also overwrites
`self.best_bid` when the candidate strictly improves on it. -/
def accept_condition {β : Type} (s : AgentState β) (bid : Option β) (progress : ℚ) :
    Bool × AgentState β :=
  match bid with
  | none => (false, s)
  | some b =>
    let utility := s.util b
    let s' : AgentState β :=
      { s with best_bid :=
          match s.best_bid with
          | none => some b
          | some b0 => if s.util b0 < utility then some b else some b0 }
    let target_utility := calculate_target_utility s progress
    (decide (utility > 0.9) || decide (utility ≥ target_utility) ||
        decide (progress > hardThreshold s) ||
        (decide (progress > lightThreshold s) &&
          decide (utility ≥ target_utility - 0.05)),
      s')

/-- The target `find_bid` uses: probing-phase decay for the first rounds,
`calculate_target_utility` afterwards. -/
def findBidTarget {β : Type} (s : AgentState β) (progress : ℚ) : ℚ :=
  if s.round_count < 5 then max 0.9 (0.95 - (s.round_count : ℚ) * 0.01)
  else calculate_target_utility s progress

/-- The sorted `(bid, utility)` cache `find_bid` materialises on first use:
all bids, sorted descending by own utility. -/
def computeBwu {β : Type} (s : AgentState β) : List (β × ℚ) :=
  (s.all_bids.map (fun b => (b, s.util b))).mergeSort (fun x y => decide (y.2 ≤ x.2))

/-- The `bids_with_utilities` list `find_bid` works on: the cached list if
present, else the one it computes and caches. -/
def bwuOf {β : Type} (s : AgentState β) : List (β × ℚ) :=
  match s.bids_with_utilities with
  | some l => l
  | none => computeBwu s

/-- `eligible_bids`: the bids meeting the target, in sorted order, capped at
100 (the loop breaks there). -/
def eligibleBids {β : Type} (s : AgentState β) (progress : ℚ) : List (β × ℚ) :=
  ((bwuOf s).filter (fun p => decide (findBidTarget s progress ≤ p.2))).take 100

/-- The near-deadline branch guard of `find_bid`: past the light threshold
with a best bid whose utility is within 0.1 of the target, re-offer it. -/
def reOffer {β : Type} (s : AgentState β) (progress : ℚ) : Bool :=
  match s.best_bid with
  | some bb => decide (progress > lightThreshold s ∧ findBidTarget s progress - 0.1 ≤ s.util bb)
  | none => false

/-- `Group16Agent.find_bid()`.  `pick` stands in for `random.choice` over the
eligible bids and `pick2` for `random.randint` over the widened top window;
`none` is Python's crash of `randint(0, -1)` on an empty window. -/
def find_bid {β : Type} (s : AgentState β) (progress : ℚ) (pick pick2 : ℕ) : Option β :=
  if reOffer s progress then s.best_bid
  else
    match he : eligibleBids s progress with
    | e :: es =>
      some ((e :: es).get ⟨pick % (e :: es).length, Nat.mod_lt _ (by simp)⟩).1
    | [] =>
      let top_percentage := max 0.01 (min 0.2 (s.top_bids_percentage + progress * 0.19))
      let expanded_top_bids := max 5 (Nat.floor ((s.all_bids.length : ℚ) * top_percentage))
      if hb : 0 < min expanded_top_bids (bwuOf s).length then
        some ((bwuOf s).get ⟨pick2 % min expanded_top_bids (bwuOf s).length,
          lt_of_lt_of_le (Nat.mod_lt _ hb) (min_le_right _ _)⟩).1
      else none

/-- The cached `bids_with_utilities` (when present) pairs each bid with its
own utility — true of every reachable cache, which `find_bid` computed from
the utility oracle. -/
def CacheWf {β : Type} (s : AgentState β) : Prop :=
  ∀ l, s.bids_with_utilities = some l → ∀ p ∈ l, p.2 = s.util p.1

/-- Sum of all tracked counts of an issue estimator's association list. -/
def sumCnt (ts : List (ℕ × ValueEstimator)) : ℕ :=
  (ts.map (fun p => p.2.count)).sum

/-- Largest tracked count of an issue estimator's association list. -/
def maxCnt (ts : List (ℕ × ValueEstimator)) : ℕ :=
  (ts.map (fun p => p.2.count)).foldr max 0

/-- The state invariant of a reachable `IssueEstimator` fed only well-formed
values: tracker keys are distinct in-range values, counts are positive and
total to `bids_received`, `max_value_count` caches their maximum, and the
derived weight and utilities are in the unit interval. -/
structure EstInv (e : IssueEstimator) : Prop where
  nodup : (e.value_trackers.map Prod.fst).Nodup
  counts_pos : ∀ p ∈ e.value_trackers, 1 ≤ p.2.count
  sum_counts : sumCnt e.value_trackers = e.bids_received
  maxc_eq : e.max_value_count = maxCnt e.value_trackers
  keys_lt : ∀ p ∈ e.value_trackers, p.1 < e.num_values
  weight_nonneg : 0 ≤ e.weight
  weight_le_one : e.weight ≤ 1
  util_mem : ∀ p ∈ e.value_trackers, 0 ≤ p.2.utility ∧ p.2.utility ≤ 1

/-- Every issue has at least two candidate values (the condition under which
no `IssueEstimator.update` division can raise). -/
def NumOk (m : OpponentModel) : Prop :=
  ∀ e ∈ m.issue_estimators, 2 ≤ e.num_values

/-- Model-level invariant for domain `sizes`: the estimators carry exactly
the domain's value-set sizes and each satisfies `EstInv`. -/
def ModelInv (sizes : List ℕ) (m : OpponentModel) : Prop :=
  m.issue_estimators.map (fun e => e.num_values) = sizes ∧
    ∀ e ∈ m.issue_estimators, EstInv e

/-- Bookkeeping invariant of `repeated_bids` and `bid_count`: the keys are
the distinct offers seen so far and `bid_count` counts all offers. -/
def RepInv (m : OpponentModel) : Prop :=
  (m.repeated_bids.map Prod.fst).Nodup ∧
    (m.repeated_bids.map Prod.fst).toFinset = m.offers.toFinset ∧
    m.bid_count = m.offers.length

/-- A concrete agent state: a domain of six bids, all with own utility 0.9
except bid 0 at 0.65; bid 0 is the best bid the opponent offered; neutral
concession metrics, defaults elsewhere, past the probing phase, with the
sorted bid cache already materialised (as after a first `find_bid`). -/
def cs0 : AgentState ℕ :=
  ⟨fun b => if b = 0 then 13 / 20 else 9 / 10, some 0, 1 / 50, 1 / 25, none, 1000, 1, 1,
    1 / 300, 0.95, 0.7, 5,
    some [(1, 9 / 10), (2, 9 / 10), (3, 9 / 10), (4, 9 / 10), (5, 9 / 10), (0, 13 / 20)],
    [0, 1, 2, 3, 4, 5]⟩

theorem concession_factor_pos {β : Type} (s : AgentState β) : 0 < concession_factor s := by
  unfold concession_factor
  split_ifs <;> norm_num

theorem adjusted_umin_mem {β : Type} (s : AgentState β)
    (hmin : s.min_target_utility = 0.7) :
    13 / 20 ≤ adjusted_umin s ∧ adjusted_umin s ≤ 3 / 4 := by
  unfold adjusted_umin
  rw [hmin]
  split_ifs <;> constructor <;> norm_num [le_max_iff, max_le_iff, le_min_iff, min_le_iff]

theorem target_antitone {β : Type} (s : AgentState β) (p1 p2 : ℚ)
    (hmax : s.max_target_utility = 0.95) (hmin : s.min_target_utility = 0.7)
    (h12 : p1 ≤ p2) :
    calculate_target_utility s p2 ≤ calculate_target_utility s p1 := by
  unfold calculate_target_utility
  have hadj := adjusted_umin_mem s hmin
  have hcf := concession_factor_pos s
  have hK : 0 ≤ s.max_target_utility - adjusted_umin s := by
    rw [hmax]; linarith [hadj.2]
  refine max_le_max (sub_le_sub_left ?_ _) le_rfl
  have h1 : (s.max_target_utility - adjusted_umin s) * p1 ≤
      (s.max_target_utility - adjusted_umin s) * p2 :=
    mul_le_mul_of_nonneg_left h12 hK
  exact mul_le_mul_of_nonneg_right h1 hcf.le

/-- C9: for progress in [0,1] and the base bounds at their initialised values
(`max_target_utility = 0.95`, `min_target_utility = 0.7`, which the code
never reassigns), `calculate_target_utility` returns
`max(umax - (umax - umin') * progress * concession_factor, umin')` where the
nudged minimum `umin'` lies within [0.65, 0.85], and the returned target lies
within [0.65, 0.95]. -/
theorem calculate_target_utility_bounds {β : Type} (s : AgentState β) (progress : ℚ)
    (hp0 : 0 ≤ progress) (hp1 : progress ≤ 1)
    (hmax : s.max_target_utility = 0.95) (hmin : s.min_target_utility = 0.7) :
    calculate_target_utility s progress =
      max (s.max_target_utility -
            (s.max_target_utility - adjusted_umin s) * progress * concession_factor s)
        (adjusted_umin s) ∧
    0.65 ≤ adjusted_umin s ∧ adjusted_umin s ≤ 0.85 ∧
    0.65 ≤ calculate_target_utility s progress ∧
    calculate_target_utility s progress ≤ 0.95 := by
  have hadj := adjusted_umin_mem s hmin
  have hcf := concession_factor_pos s
  refine ⟨rfl, by norm_num [hadj.1], by linarith [hadj.2], ?_, ?_⟩
  · calc (0.65 : ℚ) ≤ adjusted_umin s := by norm_num [hadj.1]
    _ ≤ calculate_target_utility s progress := le_max_right _ _
  · have hK : 0 ≤ (s.max_target_utility - adjusted_umin s) * progress * concession_factor s := by
      apply mul_nonneg (mul_nonneg ?_ hp0) hcf.le
      rw [hmax]; linarith [hadj.2]
    unfold calculate_target_utility
    rw [hmax] at hK ⊢
    apply max_le (by linarith) (by linarith [hadj.2])

theorem calculate_target_utility_bounds_witness :
    (0 : ℚ) ≤ 1 / 2 ∧ (1 / 2 : ℚ) ≤ 1 ∧
    cs0.max_target_utility = 0.95 ∧ cs0.min_target_utility = 0.7 ∧
    (calculate_target_utility cs0 (1 / 2) =
      max (cs0.max_target_utility -
            (cs0.max_target_utility - adjusted_umin cs0) * (1 / 2) * concession_factor cs0)
        (adjusted_umin cs0) ∧
    0.65 ≤ adjusted_umin cs0 ∧ adjusted_umin cs0 ≤ 0.85 ∧
    0.65 ≤ calculate_target_utility cs0 (1 / 2) ∧
    calculate_target_utility cs0 (1 / 2) ≤ 0.95) :=
  ⟨by norm_num, by norm_num, by norm_num [cs0], by norm_num [cs0],
    calculate_target_utility_bounds cs0 (1 / 2) (by norm_num) (by norm_num)
      (by norm_num [cs0]) (by norm_num [cs0])⟩

/-- C2: acceptance is monotonic in progress.  For a non-None bid and a fixed
agent state (utility oracle, variance/concession fields, `avg_time_per_round`,
learned knobs, with the never-reassigned base bounds at their initialised
values), if `accept_condition` accepts at progress `p1` it accepts at every
`p2 > p1`. -/
theorem accept_condition_monotone {β : Type} (s : AgentState β) (b : β) (p1 p2 : ℚ)
    (hmax : s.max_target_utility = 0.95) (hmin : s.min_target_utility = 0.7)
    (h12 : p1 < p2)
    (hacc : (accept_condition s (some b) p1).1 = true) :
    (accept_condition s (some b) p2).1 = true := by
  have htar := target_antitone s p1 p2 hmax hmin h12.le
  simp only [accept_condition, Bool.or_eq_true, Bool.and_eq_true, decide_eq_true_eq] at hacc ⊢
  rcases hacc with ((h1 | h2) | h3) | ⟨h4, h5⟩
  · exact Or.inl (Or.inl (Or.inl h1))
  · exact Or.inl (Or.inl (Or.inr (le_trans htar h2)))
  · exact Or.inl (Or.inr (lt_trans h3 h12))
  · exact Or.inr ⟨lt_trans h4 h12, le_trans (by linarith) h5⟩

theorem accept_condition_monotone_witness :
    cs0.max_target_utility = 0.95 ∧ cs0.min_target_utility = 0.7 ∧
    ((1 : ℚ) / 2 < 9 / 10) ∧
    (accept_condition cs0 (some 3) (1 / 2)).1 = true ∧
    (accept_condition cs0 (some 3) (9 / 10)).1 = true := by
  have hstart : (accept_condition cs0 (some 3) (1 / 2)).1 = true := by
    simp only [accept_condition, Bool.or_eq_true, Bool.and_eq_true, decide_eq_true_eq]
    left; left; right
    norm_num [calculate_target_utility, adjusted_umin, concession_factor, cs0, max_def]
  exact ⟨by norm_num [cs0], by norm_num [cs0], by norm_num, hstart,
    accept_condition_monotone cs0 3 (1 / 2) (9 / 10) (by norm_num [cs0])
      (by norm_num [cs0]) (by norm_num) hstart⟩

theorem reOffer_cs0 : reOffer cs0 1 = true := by
  norm_num [reOffer, lightThreshold, findBidTarget, calculate_target_utility,
    adjusted_umin, concession_factor, cs0, max_def]

theorem find_bid_cs0 : find_bid cs0 1 0 0 = some 0 := by
  simp only [find_bid, reOffer_cs0, if_true]
  rfl

/-- C10: `accept_condition` is not pure.  For every non-None candidate it
overwrites `best_bid` with the candidate exactly when the candidate's own
utility strictly exceeds the stored best bid's (or `best_bid` was `None`),
leaving every other field unchanged (and a `None` query changes nothing);
consequently an acceptance query can change which bid `find_bid`'s
near-deadline re-offer branch returns, as the concrete instance shows. -/
theorem accept_condition_best_bid_effect {β : Type} (s : AgentState β) (b : β) (p : ℚ) :
    ((accept_condition s (some b) p).2 =
      { s with best_bid :=
          match s.best_bid with
          | none => some b
          | some b0 => if s.util b0 < s.util b then some b else some b0 } ∧
      (accept_condition s none p).2 = s) ∧
    find_bid (accept_condition cs0 (some 1) 1).2 1 0 0 ≠ find_bid cs0 1 0 0 := by
  refine ⟨⟨rfl, rfl⟩, ?_⟩
  have hs1 : (accept_condition cs0 (some 1) 1).2 = { cs0 with best_bid := some 1 } := by
    norm_num [accept_condition, cs0]
  have hre1 : reOffer { cs0 with best_bid := some 1 } 1 = true := by
    norm_num [reOffer, lightThreshold, findBidTarget, calculate_target_utility,
      adjusted_umin, concession_factor, cs0, max_def]
  have h2 : find_bid (accept_condition cs0 (some 1) 1).2 1 0 0 = some 1 := by
    rw [hs1]
    simp only [find_bid, hre1, if_true]
  rw [h2, find_bid_cs0]
  simp

theorem bwuOf_wf {β : Type} (s : AgentState β) (hcache : CacheWf s) :
    ∀ p ∈ bwuOf s, p.2 = s.util p.1 := by
  unfold bwuOf
  cases hc : s.bids_with_utilities with
  | some l => exact hcache l hc
  | none =>
    intro p hp
    unfold computeBwu at hp
    rw [List.mem_mergeSort] at hp
    obtain ⟨b', _, rfl⟩ := List.mem_map.mp hp
    rfl

theorem eligibleBids_nil_forall {β : Type} (s : AgentState β) (progress : ℚ)
    (he : eligibleBids s progress = []) :
    ∀ p ∈ bwuOf s, p.2 < findBidTarget s progress := by
  unfold eligibleBids at he
  rcases List.take_eq_nil_iff.mp he with h | h
  · simp at h
  · intro p hp
    have := List.filter_eq_nil_iff.mp h p hp
    simpa using this

/-- C3 counterexample: at `cs0` with progress 1 the near-deadline re-offer
branch of `find_bid` returns bid 0, whose own utility 0.65 is strictly below
the computed target 0.7, even though 5 bids are eligible (meet the target) —
so the claimed "fewer than 5 eligible bids" exception does not apply, and the
claim as stated is false. -/
theorem find_bid_below_target_cex :
    find_bid cs0 1 0 0 = some 0 ∧ cs0.util 0 < findBidTarget cs0 1 ∧
      5 ≤ (eligibleBids cs0 1).length := by
  refine ⟨find_bid_cs0, ?_, ?_⟩
  · norm_num [cs0, findBidTarget, calculate_target_utility, adjusted_umin,
      concession_factor, max_def]
  · norm_num [eligibleBids, bwuOf, cs0, findBidTarget, calculate_target_utility,
      adjusted_umin, concession_factor, max_def, List.filter]

set_option maxHeartbeats 1000000 in
/-- C3 (amended): whenever `find_bid` returns a bid, either the bid's own
utility meets the computed target, or the near-deadline re-offer branch
returned the stored best bid whose utility may undershoot the target by up
to 0.1, or no cached bid meets the target at all and the widening
top-percentage window fallback was used (which offers no floor). -/
theorem find_bid_target_floor {β : Type} (s : AgentState β) (progress : ℚ)
    (pick pick2 : ℕ) (b : β) (hcache : CacheWf s)
    (hb : find_bid s progress pick pick2 = some b) :
    findBidTarget s progress ≤ s.util b ∨
      (s.best_bid = some b ∧ progress > lightThreshold s ∧
        findBidTarget s progress - 0.1 ≤ s.util b) ∨
      ∀ p ∈ bwuOf s, p.2 < findBidTarget s progress := by
  unfold find_bid at hb
  split_ifs at hb with hro
  · right; left
    unfold reOffer at hro
    cases hbb : s.best_bid with
    | none => rw [hbb] at hro; simp at hro
    | some bb =>
      rw [hbb] at hro hb
      simp only [decide_eq_true_eq] at hro
      cases hb
      exact ⟨rfl, hro.1, hro.2⟩
  · split at hb
    next e es he =>
      left
      obtain ⟨x, hx, rfl⟩ : ∃ x ∈ e :: es, x.1 = b :=
        ⟨_, List.get_mem _ _ _, Option.some.inj hb⟩
      have hmem : x ∈ eligibleBids s progress := by rw [he]; exact hx
      unfold eligibleBids at hmem
      have hfil := List.mem_filter.mp (List.mem_of_mem_take hmem)
      have hutil := bwuOf_wf s hcache _ hfil.1
      rw [← hutil]
      simpa using hfil.2
    next he =>
      right; right
      exact eligibleBids_nil_forall s progress he

theorem find_bid_target_floor_witness :
    CacheWf cs0 ∧ find_bid cs0 1 0 0 = some 0 ∧
      (findBidTarget cs0 1 ≤ cs0.util 0 ∨
        (cs0.best_bid = some 0 ∧ (1 : ℚ) > lightThreshold cs0 ∧
          findBidTarget cs0 1 - 0.1 ≤ cs0.util 0) ∨
        ∀ p ∈ bwuOf cs0, p.2 < findBidTarget cs0 1) := by
  have hc : CacheWf cs0 := by
    intro l hl p hp
    simp only [cs0] at hl
    cases hl
    fin_cases hp <;> norm_num [cs0]
  exact ⟨hc, find_bid_cs0, find_bid_target_floor cs0 1 0 0 0 hc find_bid_cs0⟩

/-- C5: `learn_from_past_sessions` sets the three policy knobs as a pure
function of the failed-session count (`utilityAtFinish == 0`) and the
low-utility-session count (`utilityAtFinish < 0.5`), each clamped to its
staircase table: equal counts give equal knobs on any model state, zero
counts give `(0, 0, 1/300)`, and counts of at least 3 saturate the tables at
`(1.1, 1.1, 1/30)`. -/
theorem learn_from_past_sessions_pure (m1 m2 : OpponentModel) (s1 s2 : List ℚ)
    (hf : failedSessionsCount s1 = failedSessionsCount s2)
    (hl : lowUtilitySessionsCount s1 = lowUtilitySessionsCount s2) :
    ((m1.learn_from_past_sessions s1).force_accept_at_remaining_turns,
        (m1.learn_from_past_sessions s1).force_accept_at_remaining_turns_light,
        (m1.learn_from_past_sessions s1).top_bids_percentage) =
      ((m2.learn_from_past_sessions s2).force_accept_at_remaining_turns,
        (m2.learn_from_past_sessions s2).force_accept_at_remaining_turns_light,
        (m2.learn_from_past_sessions s2).top_bids_percentage) ∧
    (failedSessionsCount s1 = 0 → lowUtilitySessionsCount s1 = 0 →
      ((m1.learn_from_past_sessions s1).force_accept_at_remaining_turns,
        (m1.learn_from_past_sessions s1).force_accept_at_remaining_turns_light,
        (m1.learn_from_past_sessions s1).top_bids_percentage) = (0, 0, 1 / 300)) ∧
    (3 ≤ failedSessionsCount s1 → 3 ≤ lowUtilitySessionsCount s1 →
      ((m1.learn_from_past_sessions s1).force_accept_at_remaining_turns,
        (m1.learn_from_past_sessions s1).force_accept_at_remaining_turns_light,
        (m1.learn_from_past_sessions s1).top_bids_percentage) = (1.1, 1.1, 1 / 30)) := by
  refine ⟨?_, ?_, ?_⟩
  · simp only [OpponentModel.learn_from_past_sessions, hf, hl]
  · intro h0f h0l
    simp only [OpponentModel.learn_from_past_sessions, h0f, h0l]
    norm_num [hard_accept_levels, soft_accept_levels, top_bids_levels]
  · intro h3f h3l
    simp only [OpponentModel.learn_from_past_sessions]
    have e1 : (if hard_accept_levels.length ≤ failedSessionsCount s1 then
        hard_accept_levels.length - 1 else failedSessionsCount s1) = 3 := by
      simp only [hard_accept_levels]
      split_ifs with h <;> simp_all <;> omega
    have e2 : (if soft_accept_levels.length ≤ failedSessionsCount s1 then
        soft_accept_levels.length - 1 else failedSessionsCount s1) = 2 := by
      simp only [soft_accept_levels]
      split_ifs with h <;> simp_all
    have e3 : (if top_bids_levels.length ≤ lowUtilitySessionsCount s1 then
        top_bids_levels.length - 1 else lowUtilitySessionsCount s1) = 2 := by
      simp only [top_bids_levels]
      split_ifs with h <;> simp_all
    rw [e1, e2, e3]
    norm_num [hard_accept_levels, soft_accept_levels, top_bids_levels]

theorem learn_from_past_sessions_pure_witness :
    failedSessionsCount [] = failedSessionsCount [] ∧
      lowUtilitySessionsCount [] = lowUtilitySessionsCount [] ∧
      (((OpponentModel.init []).learn_from_past_sessions []).force_accept_at_remaining_turns,
          ((OpponentModel.init []).learn_from_past_sessions
            []).force_accept_at_remaining_turns_light,
          ((OpponentModel.init []).learn_from_past_sessions []).top_bids_percentage) =
        (((OpponentModel.init []).learn_from_past_sessions []).force_accept_at_remaining_turns,
          ((OpponentModel.init []).learn_from_past_sessions
            []).force_accept_at_remaining_turns_light,
          ((OpponentModel.init []).learn_from_past_sessions []).top_bids_percentage) := by
  refine ⟨rfl, rfl, ?_⟩
  exact (learn_from_past_sessions_pure (OpponentModel.init []) (OpponentModel.init [])
    [] [] rfl rfl).1

theorem sub_div_ne_zero (b q : ℚ) (hb : 0 < b) (hq : 1 < q) : b - b / q ≠ 0 := by
  have := div_lt_self hb hq
  intro h
  linarith

/-- C7 counterexample: on an issue with a single possible value, the very
first `IssueEstimator.update` hits the weight formula's zero denominator and
raises `ZeroDivisionError` (modelled as `none`) — the code has no guard that
would retain the previous weight instead. -/
theorem issue_update_single_value_raises :
    (IssueEstimator.init 1).update 0 = none := by
  simp only [IssueEstimator.update, IssueEstimator.init]
  norm_num

/-- C7 (amended): `IssueEstimator.update` never raises a division-by-zero
failure for an issue with at least two possible values (the denominator
`bids_received - equal_shares` is then never 0); for an issue with at most
one possible value it always raises (returns `none`) — the code computes the
weight formula unguarded rather than retaining the previous weight. -/
theorem issue_update_raise_characterisation (e : IssueEstimator) (v : ℕ) :
    (2 ≤ e.num_values → (e.update v).isSome) ∧
      (e.num_values ≤ 1 → e.update v = none) := by
  constructor
  · intro h2
    have hq : (1 : ℚ) < (e.num_values : ℚ) := by exact_mod_cast h2
    have hb : (0 : ℚ) < ((e.bids_received + 1 : ℕ) : ℚ) := by positivity
    simp only [IssueEstimator.update]
    rw [if_neg (by positivity), if_neg]
    · simp
    · push_cast
      push_cast at hb
      exact sub_div_ne_zero _ _ hb hq
  · intro h1
    interval_cases h : e.num_values
    · simp only [IssueEstimator.update]
      rw [h]
      norm_num
    · simp only [IssueEstimator.update]
      rw [h]
      norm_num

theorem issue_update_raise_characterisation_witness :
    (2 ≤ (IssueEstimator.init 2).num_values ∧ ((IssueEstimator.init 2).update 0).isSome) ∧
      ((IssueEstimator.init 1).num_values ≤ 1 ∧ (IssueEstimator.init 1).update 0 = none) :=
  ⟨⟨by norm_num [IssueEstimator.init],
      (issue_update_raise_characterisation (IssueEstimator.init 2) 0).1
        (by norm_num [IssueEstimator.init])⟩,
    ⟨by norm_num [IssueEstimator.init],
      (issue_update_raise_characterisation (IssueEstimator.init 1) 0).2
        (by norm_num [IssueEstimator.init])⟩⟩

theorem update_init_closed (n v : ℕ) (h2 : 2 ≤ n) :
    (IssueEstimator.init n).update v = some ⟨1, 1, n, [(v, ⟨1, 1⟩)], 1⟩ := by
  have hq : (1 : ℚ) < (n : ℚ) := by exact_mod_cast h2
  have hden : (1 : ℚ) - 1 / (n : ℚ) ≠ 0 := by
    have := sub_div_ne_zero 1 (n : ℚ) one_pos hq
    simpa using this
  simp only [IssueEstimator.update, IssueEstimator.init, bumpTrackers, cntOf, lookupTracker]
  rw [if_neg (by positivity)]
  norm_num
  have hden' : (1 : ℚ) - (n : ℚ)⁻¹ ≠ 0 := by
    rw [one_div] at hden
    exact hden
  refine ⟨hden', ?_, div_self hden'⟩
  rw [div_self hden']
  simp [ValueEstimator.recalculate_utility]

theorem update_rep_closed (n v j : ℕ) (u : ℝ) (h2 : 2 ≤ n) :
    (⟨j, j, n, [(v, ⟨j, u⟩)], 1⟩ : IssueEstimator).update v =
      some ⟨j + 1, j + 1, n, [(v, ⟨j + 1, 1⟩)], 1⟩ := by
  have hq : (1 : ℚ) < (n : ℚ) := by exact_mod_cast h2
  have hb : (0 : ℚ) < (j : ℚ) + 1 := by positivity
  have hden : (j : ℚ) + 1 - ((j : ℚ) + 1) / (n : ℚ) ≠ 0 :=
    sub_div_ne_zero ((j : ℚ) + 1) (n : ℚ) hb hq
  simp only [IssueEstimator.update, bumpTrackers, cntOf, lookupTracker]
  norm_num
  refine ⟨by omega, hden, ?_, div_self hden⟩
  rw [div_self hden]
  simp [ValueEstimator.recalculate_utility]

theorem runEstimator_cons (e : IssueEstimator) (v : ℕ) (vs : List ℕ)
    (e' : IssueEstimator) (h : e.update v = some e') :
    runEstimator e (v :: vs) = runEstimator e' vs := by
  simp only [runEstimator, h]

theorem runEstimator_rep (n v : ℕ) (h2 : 2 ≤ n) :
    ∀ (k j : ℕ), 1 ≤ j →
      runEstimator (⟨j, j, n, [(v, ⟨j, 1⟩)], 1⟩ : IssueEstimator) (List.replicate k v) =
        some ⟨j + k, j + k, n, [(v, ⟨j + k, 1⟩)], 1⟩ := by
  intro k
  induction k with
  | zero => intro j hj; simp [runEstimator]
  | succ k ih =>
    intro j hj
    rw [List.replicate_succ]
    rw [runEstimator_cons _ _ _ _ (update_rep_closed n v j 1 h2)]
    have h3 : j + 1 + k = j + (k + 1) := by omega
    have := ih (j + 1) (by omega)
    rw [h3] at this
    exact this

theorem runEstimator_replicate_weight_one (n v k : ℕ) (h2 : 2 ≤ n) (hk : 1 ≤ k) :
    runEstimator (IssueEstimator.init n) (List.replicate k v) =
      some ⟨k, k, n, [(v, ⟨k, 1⟩)], 1⟩ := by
  obtain ⟨k', rfl⟩ : ∃ k', k = k' + 1 := ⟨k - 1, by omega⟩
  rw [List.replicate_succ]
  rw [runEstimator_cons _ _ _ _ (update_init_closed n v h2)]
  have h3 : 1 + k' = k' + 1 := by omega
  have := runEstimator_rep n v h2 k' 1 le_rfl
  rw [h3] at this
  exact this

/-- C6 counterexample: for an issue with 2 possible values, immediately
after the first observation the weight is 1, not 0 (with one observation
`max_value_count = bids_received = 1`, so the formula yields
`(1 - 1/2) / (1 - 1/2) = 1`). -/
theorem issue_weight_after_first_obs_cex :
    (runEstimator (IssueEstimator.init 2) [0]).map (fun e => e.weight) = some 1 ∧
      (runEstimator (IssueEstimator.init 2) [0]).map (fun e => e.weight) ≠ some 0 := by
  have h : runEstimator (IssueEstimator.init 2) [0] = some ⟨1, 1, 2, [(0, ⟨1, 1⟩)], 1⟩ := by
    have := runEstimator_replicate_weight_one 2 0 1 (by norm_num) le_rfl
    simpa using this
  rw [h]
  norm_num

/-- C6 (amended): for every issue with at least 2 possible values,
`IssueEstimator.weight` equals 1 (not 0) immediately after the first
observation, and stays exactly 1 after any number of consecutive
observations that all repeat the same value. -/
theorem issue_weight_repeat_one (n v k : ℕ) (h2 : 2 ≤ n) (hk : 1 ≤ k) :
    ∃ e, runEstimator (IssueEstimator.init n) (List.replicate k v) = some e ∧
      e.weight = 1 :=
  ⟨_, runEstimator_replicate_weight_one n v k h2 hk, rfl⟩

theorem issue_weight_repeat_one_witness :
    2 ≤ 2 ∧ 1 ≤ 3 ∧
      ∃ e, runEstimator (IssueEstimator.init 2) (List.replicate 3 0) = some e ∧
        e.weight = 1 :=
  ⟨le_rfl, by norm_num, issue_weight_repeat_one 2 0 3 le_rfl (by norm_num)⟩

theorem update_num_values (e : IssueEstimator) (v : ℕ) (e' : IssueEstimator)
    (h : e.update v = some e') : e'.num_values = e.num_values := by
  simp only [IssueEstimator.update] at h
  split_ifs at h
  cases h
  rfl

theorem update_isSome_of_two_le (e : IssueEstimator) (v : ℕ) (h2 : 2 ≤ e.num_values) :
    ∃ e', e.update v = some e' :=
  Option.isSome_iff_exists.mp ((issue_update_raise_characterisation e v).1 h2)

theorem updateEstimators_weak (bid : Bid) :
    ∀ (ests : List IssueEstimator) (i : ℕ), (∀ e ∈ ests, 2 ≤ e.num_values) →
      ∃ ests', updateEstimators bid ests i = some ests' ∧
        (∀ e ∈ ests', 2 ≤ e.num_values) ∧ ests'.length = ests.length := by
  intro ests
  induction ests with
  | nil => intro i _; exact ⟨[], rfl, by simp, rfl⟩
  | cons e rest ih =>
    intro i hok
    obtain ⟨e', he'⟩ := update_isSome_of_two_le e (getValue bid i)
      (hok e (List.mem_cons_self _ _))
    obtain ⟨rest', hrest', hok', hlen⟩ := ih (i + 1)
      (fun x hx => hok x (List.mem_cons_of_mem _ hx))
    refine ⟨e' :: rest', ?_, ?_, by simp [hlen]⟩
    · simp only [updateEstimators, he', hrest']
    · intro x hx
      rcases List.mem_cons.mp hx with rfl | hx
      · rw [update_num_values e (getValue bid i) x he']
        exact hok e (List.mem_cons_self _ _)
      · exact hok' x hx

theorem model_update_spec (m : OpponentModel) (bid : Bid) (ou : Option ℚ) (h : NumOk m) :
    ∃ m', m.update bid ou = some m' ∧ NumOk m' ∧
      m'.offers = m.offers ++ [bid] ∧
      m'.bid_count = m.bid_count + 1 ∧
      m'.repeated_bids = bumpRepeated bid m.repeated_bids ∧
      m'.issue_estimators.length = m.issue_estimators.length ∧
      (m'.best_bid_for_us, m'.best_bid_utility) =
        (match ou with
          | none => (m.best_bid_for_us, m.best_bid_utility)
          | some u =>
            match m.best_bid_for_us with
            | none => (some bid, u)
            | some bb =>
              if u > m.best_bid_utility then (some bid, u)
              else (some bb, m.best_bid_utility)) := by
  obtain ⟨ests', hests, hok', hlen⟩ := updateEstimators_weak bid m.issue_estimators 0 h
  simp only [OpponentModel.update, hests]
  exact ⟨_, rfl, hok', rfl, rfl, rfl, hlen, rfl⟩

theorem bumpRepeated_keys (b : Bid) : ∀ l : List (Bid × ℕ),
    (bumpRepeated b l).map Prod.fst =
      if b ∈ l.map Prod.fst then l.map Prod.fst else l.map Prod.fst ++ [b] := by
  intro l
  induction l with
  | nil => simp [bumpRepeated]
  | cons p rest ih =>
    obtain ⟨k, c⟩ := p
    by_cases hk : k = b
    · subst hk
      simp [bumpRepeated]
    · simp only [bumpRepeated, if_neg hk, List.map_cons, ih]
      by_cases hmem : b ∈ List.map Prod.fst rest
      · rw [if_pos hmem, if_pos (by simp [hmem])]
      · rw [if_neg hmem, if_neg ?_]
        · simp
        · simp only [List.mem_cons, not_or]
          exact ⟨fun h => hk h.symm, hmem⟩

theorem repInv_step (m m' : OpponentModel) (bid : Bid)
    (hoff : m'.offers = m.offers ++ [bid])
    (hcnt : m'.bid_count = m.bid_count + 1)
    (hrep : m'.repeated_bids = bumpRepeated bid m.repeated_bids)
    (hinv : RepInv m) : RepInv m' := by
  obtain ⟨hnd, hfs, hbc⟩ := hinv
  refine ⟨?_, ?_, ?_⟩
  · rw [hrep, bumpRepeated_keys]
    split_ifs with hmem
    · exact hnd
    · simp [List.nodup_append, hnd, hmem]
  · rw [hrep, hoff, bumpRepeated_keys, List.toFinset_append]
    split_ifs with hmem
    · rw [hfs]
      have hb : bid ∈ m.offers.toFinset := by
        rw [← hfs]
        simpa using hmem
      simp [Finset.union_eq_left.mpr (Finset.singleton_subset_iff.mpr hb)]
    · rw [List.toFinset_append, hfs]
  · rw [hcnt, hoff]
    simp [hbc]

theorem runModel_weak (inputs : List (Bid × Option ℚ)) :
    ∀ m : OpponentModel, NumOk m →
      ∃ m', runModel m inputs = some m' ∧ NumOk m' ∧
        m'.offers = m.offers ++ inputs.map Prod.fst ∧
        m'.bid_count = m.bid_count + inputs.length ∧
        m'.issue_estimators.length = m.issue_estimators.length ∧
        (RepInv m → RepInv m') := by
  induction inputs with
  | nil => intro m h; exact ⟨m, rfl, h, by simp, rfl, rfl, id⟩
  | cons p ps ih =>
    intro m h
    obtain ⟨m1, hup, h1, hoff1, hcnt1, hrep1, hlen1, hbest1⟩ := model_update_spec m p.1 p.2 h
    obtain ⟨m', hrun, hok', hoff', hcnt', hlen', hinv'⟩ := ih m1 h1
    refine ⟨m', ?_, hok', ?_, ?_, ?_, ?_⟩
    · simp only [runModel, hup, hrun]
    · rw [hoff', hoff1]
      simp
    · rw [hcnt', hcnt1]
      simp only [List.length_cons]
      omega
    · rw [hlen', hlen1]
    · intro hri
      exact hinv' (repInv_step m m1 p.1 hoff1 hcnt1 hrep1 hri)

theorem runModel_append (l1 l2 : List (Bid × Option ℚ)) :
    ∀ m : OpponentModel, runModel m (l1 ++ l2) =
      match runModel m l1 with
      | none => none
      | some m1 => runModel m1 l2 := by
  induction l1 with
  | nil => intro m; simp [runModel]
  | cons p ps ih =>
    intro m
    simp only [List.cons_append, runModel]
    cases m.update p.1 p.2 with
    | none => rfl
    | some m1 => exact ih m1

theorem numOk_init (sizes : List ℕ) (hsz : ∀ n ∈ sizes, 2 ≤ n) :
    NumOk (OpponentModel.init sizes) := by
  intro e he
  simp only [OpponentModel.init] at he
  obtain ⟨n, hn, rfl⟩ := List.mem_map.mp he
  exact hsz n hn

/-- C8: after any nonempty sequence of updates, each supplied with the
agent's own utility for the offered bid, `best_bid_for_us` is the offer with
maximal own utility — ties resolved in favour of the first-seen offer (every
offer before it in the sequence is strictly worse) — and `best_bid_utility`
is that maximal utility. -/
theorem best_bid_tracking (sizes : List ℕ) (os : List Bid) (u : Bid → ℚ)
    (hsz : ∀ n ∈ sizes, 2 ≤ n) (hne : os ≠ []) :
    ∃ m' bb pre post,
      runModel (OpponentModel.init sizes) (os.map (fun b => (b, some (u b)))) = some m' ∧
        m'.best_bid_for_us = some bb ∧ m'.best_bid_utility = u bb ∧
        os = pre ++ bb :: post ∧ (∀ c ∈ os, u c ≤ u bb) ∧ (∀ c ∈ pre, u c < u bb) := by
  revert hne
  induction os using List.reverseRecOn with
  | nil => intro hne; exact absurd rfl hne
  | append_singleton l b ih =>
    intro hne
    rcases eq_or_ne l [] with rfl | hl
    · obtain ⟨m1, hup, hok1, hoff1, hcnt1, hrep1, hlen1, hbest1⟩ :=
        model_update_spec (OpponentModel.init sizes) b (some (u b)) (numOk_init sizes hsz)
      simp only [OpponentModel.init] at hbest1
      rw [Prod.mk.injEq] at hbest1
      refine ⟨m1, b, [], [], ?_, hbest1.1, hbest1.2, by simp, by simp, by simp⟩
      simp only [List.nil_append, List.map_cons, List.map_nil, runModel, hup]
    · obtain ⟨m', bb, pre, post, hrun, hbb, hbu, hdec, hall, hpre⟩ := ih hl
      obtain ⟨m'', hrun'', hok'', _, _, _, _⟩ :=
        runModel_weak (l.map (fun b => (b, some (u b)))) (OpponentModel.init sizes)
          (numOk_init sizes hsz)
      rw [hrun] at hrun''
      cases hrun''
      obtain ⟨m2, hup2, hok2, hoff2, hcnt2, hrep2, hlen2, hbest2⟩ :=
        model_update_spec m' b (some (u b)) hok''
      rw [hbb, hbu] at hbest2
      have hrunfull :
          runModel (OpponentModel.init sizes) ((l ++ [b]).map (fun b => (b, some (u b)))) =
            some m2 := by
        rw [List.map_append, runModel_append, hrun]
        simp only [List.map_cons, List.map_nil, runModel, hup2]
      rw [Prod.mk.injEq] at hbest2
      by_cases hgt : u b > u bb
      · rw [if_pos hgt] at hbest2
        refine ⟨m2, b, l, [], hrunfull, hbest2.1, hbest2.2, by simp, ?_, ?_⟩
        · intro c hc
          rcases List.mem_append.mp hc with hc | hc
          · exact le_of_lt (lt_of_le_of_lt (hall c hc) hgt)
          · rw [List.mem_singleton.mp hc]
        · intro c hc
          exact lt_of_le_of_lt (hall c hc) hgt
      · rw [if_neg hgt] at hbest2
        refine ⟨m2, bb, pre, post ++ [b], hrunfull, hbest2.1, hbest2.2, ?_, ?_, hpre⟩
        · rw [hdec]
          simp
        · intro c hc
          rcases List.mem_append.mp hc with hc | hc
          · exact hall c hc
          · rw [List.mem_singleton.mp hc]
            exact le_of_not_lt hgt

theorem best_bid_tracking_witness :
    (∀ n ∈ ([2] : List ℕ), 2 ≤ n) ∧ (([[0], [1]] : List Bid) ≠ []) ∧
      ∃ m' bb pre post,
        runModel (OpponentModel.init [2])
            (([[0], [1]] : List Bid).map (fun b => (b, some ((b.headD 0 : ℕ) : ℚ)))) =
          some m' ∧
          m'.best_bid_for_us = some bb ∧ m'.best_bid_utility = ((bb.headD 0 : ℕ) : ℚ) ∧
          ([[0], [1]] : List Bid) = pre ++ bb :: post ∧
          (∀ c ∈ ([[0], [1]] : List Bid), ((c.headD 0 : ℕ) : ℚ) ≤ ((bb.headD 0 : ℕ) : ℚ)) ∧
          (∀ c ∈ pre, ((c.headD 0 : ℕ) : ℚ) < ((bb.headD 0 : ℕ) : ℚ)) :=
  ⟨by decide, by decide,
    best_bid_tracking [2] [[0], [1]] (fun b => ((b.headD 0 : ℕ) : ℚ)) (by decide) (by decide)⟩

theorem get_opponent_type_eval (m : OpponentModel) :
    (m.bid_count < 3 → m.get_opponent_type = "UNKNOWN") ∧
      (¬m.bid_count < 3 →
        ((m.concession_rate < 0.02 ∨
            ((m.repeated_bids.length : ℚ) / (m.bid_count : ℚ)) < 0.5) →
          m.get_opponent_type = "HARDHEADED") ∧
        (¬(m.concession_rate < 0.02 ∨
            ((m.repeated_bids.length : ℚ) / (m.bid_count : ℚ)) < 0.5) →
          (m.concession_rate > 0.05 → m.get_opponent_type = "CONCEDER") ∧
          (¬m.concession_rate > 0.05 → m.get_opponent_type = "NEUTRAL"))) := by
  unfold OpponentModel.get_opponent_type
  refine ⟨fun h => if_pos h, fun h => ⟨fun hh => ?_, fun hh => ⟨fun hc => ?_, fun hc => ?_⟩⟩⟩
  · rw [if_neg h, if_pos hh]
  · rw [if_neg h, if_neg hh, if_pos hc]
  · rw [if_neg h, if_neg hh, if_neg hc]

theorem repInv_init (sizes : List ℕ) : RepInv (OpponentModel.init sizes) := by
  refine ⟨by simp [OpponentModel.init], by simp [OpponentModel.init], by simp [OpponentModel.init]⟩

theorem repeated_bids_card (m : OpponentModel) (h : RepInv m) :
    (m.repeated_bids.length : ℚ) = ((m.offers.toFinset.card : ℕ) : ℚ) := by
  obtain ⟨hnd, hfs, _⟩ := h
  have h1 : m.repeated_bids.length = (m.repeated_bids.map Prod.fst).length := by simp
  rw [h1, ← List.toFinset_card_of_nodup hnd, hfs]

/-- C4: `get_opponent_type` behaviour on any reachable model.  With fewer
than 3 offers it returns UNKNOWN; from 3 offers on it returns HARDHEADED
when `concession_rate < 0.02` or the unique-offers/total-offers quotient is
below 0.5 (hardheaded check first), else CONCEDER when
`concession_rate > 0.05`, else NEUTRAL; in particular after 5 updates with
one identical bid it returns HARDHEADED (repetition quotient 1/5 < 0.5). -/
theorem opponent_type_spec (sizes : List ℕ) (inputs : List (Bid × Option ℚ))
    (hsz : ∀ n ∈ sizes, 2 ≤ n) :
    ∃ m', runModel (OpponentModel.init sizes) inputs = some m' ∧
      m'.bid_count = inputs.length ∧
      (inputs.length < 3 → m'.get_opponent_type = "UNKNOWN") ∧
      (3 ≤ inputs.length →
        ((m'.concession_rate < 0.02 ∨
            (((inputs.map Prod.fst).toFinset.card : ℚ) / (inputs.length : ℚ)) < 0.5) →
          m'.get_opponent_type = "HARDHEADED") ∧
        (¬(m'.concession_rate < 0.02 ∨
            (((inputs.map Prod.fst).toFinset.card : ℚ) / (inputs.length : ℚ)) < 0.5) →
          (m'.concession_rate > 0.05 → m'.get_opponent_type = "CONCEDER") ∧
          (¬m'.concession_rate > 0.05 → m'.get_opponent_type = "NEUTRAL"))) ∧
      (∀ (b : Bid) (ou : Option ℚ), inputs = List.replicate 5 (b, ou) →
        m'.get_opponent_type = "HARDHEADED") := by
  obtain ⟨m', hrun, hok, hoff, hcnt, hlen, hrep⟩ :=
    runModel_weak inputs _ (numOk_init sizes hsz)
  have hri := hrep (repInv_init sizes)
  have hcnt' : m'.bid_count = inputs.length := by
    rw [hcnt]; simp [OpponentModel.init]
  have hoff' : m'.offers = inputs.map Prod.fst := by
    rw [hoff]; simp [OpponentModel.init]
  have hcard := repeated_bids_card m' hri
  rw [hoff'] at hcard
  have heval := get_opponent_type_eval m'
  have hfrac : ((m'.repeated_bids.length : ℚ) / (m'.bid_count : ℚ)) =
      (((inputs.map Prod.fst).toFinset.card : ℕ) : ℚ) / (inputs.length : ℚ) := by
    rw [hcard, hcnt']
  refine ⟨m', hrun, hcnt', ?_, ?_, ?_⟩
  · intro h3
    exact heval.1 (by rw [hcnt']; exact h3)
  · intro h3
    have hn3 : ¬m'.bid_count < 3 := by rw [hcnt']; omega
    obtain ⟨hhard, hrest⟩ := heval.2 hn3
    constructor
    · intro hcond
      exact hhard (by rw [hfrac]; exact hcond)
    · intro hcond
      exact hrest (by rw [hfrac]; exact hcond)
  · intro b ou hrepl
    subst hrepl
    have hn3 : ¬m'.bid_count < 3 := by rw [hcnt']; simp
    apply (heval.2 hn3).1
    right
    rw [hfrac]
    have hcardval : ((List.replicate 5 (b, ou)).map Prod.fst).toFinset.card = 1 := by
      rw [List.map_replicate]
      rw [List.toFinset_replicate_of_ne_zero (by norm_num)]
      simp
    rw [hcardval]
    norm_num

theorem opponent_type_spec_witness :
    (∀ n ∈ ([2] : List ℕ), 2 ≤ n) ∧
      ∃ m', runModel (OpponentModel.init [2]) ([] : List (Bid × Option ℚ)) = some m' ∧
        m'.bid_count = ([] : List (Bid × Option ℚ)).length ∧
        (([] : List (Bid × Option ℚ)).length < 3 → m'.get_opponent_type = "UNKNOWN") ∧
        (3 ≤ ([] : List (Bid × Option ℚ)).length →
          ((m'.concession_rate < 0.02 ∨
              (((([] : List (Bid × Option ℚ)).map Prod.fst).toFinset.card : ℚ) /
                  ((([] : List (Bid × Option ℚ)).length : ℕ) : ℚ)) < 0.5) →
            m'.get_opponent_type = "HARDHEADED") ∧
          (¬(m'.concession_rate < 0.02 ∨
              (((([] : List (Bid × Option ℚ)).map Prod.fst).toFinset.card : ℚ) /
                  ((([] : List (Bid × Option ℚ)).length : ℕ) : ℚ)) < 0.5) →
            (m'.concession_rate > 0.05 → m'.get_opponent_type = "CONCEDER") ∧
            (¬m'.concession_rate > 0.05 → m'.get_opponent_type = "NEUTRAL"))) ∧
        (∀ (b : Bid) (ou : Option ℚ), ([] : List (Bid × Option ℚ)) = List.replicate 5 (b, ou) →
          m'.get_opponent_type = "HARDHEADED") :=
  ⟨by decide, opponent_type_spec [2] [] (by decide)⟩

theorem lookupTracker_mem (v : ℕ) :
    ∀ (ts : List (ℕ × ValueEstimator)) (t : ValueEstimator),
      lookupTracker v ts = some t → (v, t) ∈ ts := by
  intro ts
  induction ts with
  | nil => intro t h; simp [lookupTracker] at h
  | cons p rest ih =>
    intro t h
    obtain ⟨k, t0⟩ := p
    simp only [lookupTracker] at h
    split_ifs at h with hk
    · cases h
      subst hk
      exact List.mem_cons_self _ _
    · exact List.mem_cons_of_mem _ (ih t h)

theorem bumpTrackers_keys (v : ℕ) : ∀ ts : List (ℕ × ValueEstimator),
    (bumpTrackers v ts).map Prod.fst =
      if v ∈ ts.map Prod.fst then ts.map Prod.fst else ts.map Prod.fst ++ [v] := by
  intro ts
  induction ts with
  | nil => simp [bumpTrackers]
  | cons p rest ih =>
    obtain ⟨k, t⟩ := p
    by_cases hk : k = v
    · subst hk
      simp [bumpTrackers]
    · simp only [bumpTrackers, if_neg hk, List.map_cons, ih]
      by_cases hmem : v ∈ List.map Prod.fst rest
      · rw [if_pos hmem, if_pos (by simp [hmem])]
      · rw [if_neg hmem, if_neg ?_]
        · simp
        · simp only [List.mem_cons, not_or]
          exact ⟨fun h => hk h.symm, hmem⟩

theorem cntOf_bump (v : ℕ) : ∀ ts : List (ℕ × ValueEstimator),
    cntOf v (bumpTrackers v ts) = cntOf v ts + 1 := by
  intro ts
  induction ts with
  | nil => simp [cntOf, bumpTrackers, lookupTracker]
  | cons p rest ih =>
    obtain ⟨k, t⟩ := p
    by_cases hk : k = v
    · subst hk
      simp [cntOf, bumpTrackers, lookupTracker]
    · simp only [bumpTrackers, if_neg hk, cntOf, lookupTracker, if_neg hk]
      exact ih

theorem sumCnt_bump (v : ℕ) : ∀ ts : List (ℕ × ValueEstimator),
    sumCnt (bumpTrackers v ts) = sumCnt ts + 1 := by
  intro ts
  induction ts with
  | nil => simp [sumCnt, bumpTrackers]
  | cons p rest ih =>
    obtain ⟨k, t⟩ := p
    by_cases hk : k = v
    · subst hk
      simp only [bumpTrackers, sumCnt, List.map_cons, List.sum_cons, if_pos]
      omega
    · simp only [bumpTrackers, if_neg hk, sumCnt, List.map_cons, List.sum_cons] at ih ⊢
      omega

theorem maxCnt_bump (v : ℕ) : ∀ ts : List (ℕ × ValueEstimator),
    maxCnt (bumpTrackers v ts) = max (cntOf v ts + 1) (maxCnt ts) := by
  intro ts
  induction ts with
  | nil => simp [maxCnt, bumpTrackers, cntOf, lookupTracker]
  | cons p rest ih =>
    obtain ⟨k, t⟩ := p
    by_cases hk : k = v
    · subst hk
      simp only [maxCnt, cntOf] at ih ⊢
      simp [bumpTrackers, lookupTracker]
      omega
    · simp only [bumpTrackers, if_neg hk, maxCnt, cntOf, lookupTracker, if_neg hk,
        List.map_cons, List.foldr_cons] at ih ⊢
      omega

theorem counts_pos_bump (v : ℕ) : ∀ ts : List (ℕ × ValueEstimator),
    (∀ p ∈ ts, 1 ≤ p.2.count) → ∀ p ∈ bumpTrackers v ts, 1 ≤ p.2.count := by
  intro ts
  induction ts with
  | nil =>
    intro _ p hp
    simp only [bumpTrackers, List.mem_singleton] at hp
    subst hp
    exact le_refl 1
  | cons q rest ih =>
    intro hpos p hp
    obtain ⟨k, t⟩ := q
    by_cases hk : k = v
    · subst hk
      simp only [bumpTrackers, if_pos rfl] at hp
      rcases List.mem_cons.mp hp with rfl | hp
      · simp
      · exact hpos p (List.mem_cons_of_mem _ hp)
    · simp only [bumpTrackers, if_neg hk] at hp
      rcases List.mem_cons.mp hp with rfl | hp
      · exact hpos _ (List.mem_cons_self _ _)
      · exact ih (fun q hq => hpos q (List.mem_cons_of_mem _ hq)) p hp

theorem count_le_maxCnt : ∀ (ts : List (ℕ × ValueEstimator)) (p : ℕ × ValueEstimator),
    p ∈ ts → p.2.count ≤ maxCnt ts := by
  intro ts
  induction ts with
  | nil => intro p hp; simp at hp
  | cons q rest ih =>
    intro p hp
    rcases List.mem_cons.mp hp with rfl | hp
    · simp only [maxCnt, List.map_cons, List.foldr_cons]
      omega
    · have := ih p hp
      simp only [maxCnt, List.map_cons, List.foldr_cons] at this ⊢
      omega

theorem maxCnt_le_sumCnt : ∀ ts : List (ℕ × ValueEstimator), maxCnt ts ≤ sumCnt ts := by
  intro ts
  induction ts with
  | nil => simp [maxCnt, sumCnt]
  | cons q rest ih =>
    simp only [maxCnt, sumCnt, List.map_cons, List.foldr_cons, List.sum_cons] at ih ⊢
    omega

theorem sumCnt_le_maxCnt_mul_length : ∀ ts : List (ℕ × ValueEstimator),
    sumCnt ts ≤ maxCnt ts * ts.length := by
  intro ts
  induction ts with
  | nil => simp [maxCnt, sumCnt]
  | cons q rest ih =>
    simp only [maxCnt, sumCnt, List.map_cons, List.foldr_cons, List.sum_cons,
      List.length_cons] at ih ⊢
    have h1 : maxCnt rest * rest.length ≤
        (max q.2.count (maxCnt rest)) * rest.length :=
      Nat.mul_le_mul_right _ (le_max_right _ _)
    simp only [maxCnt, sumCnt] at h1
    have h2 : q.2.count ≤ max q.2.count (List.foldr max 0 (rest.map (fun p => p.2.count))) :=
      le_max_left _ _
    calc q.2.count + (rest.map (fun p => p.2.count)).sum ≤
        q.2.count + List.foldr max 0 (rest.map (fun p => p.2.count)) * rest.length := by
          omega
      _ ≤ max q.2.count (List.foldr max 0 (rest.map (fun p => p.2.count))) * (rest.length + 1) := by
          have h3 : List.foldr max 0 (rest.map (fun p => p.2.count)) ≤
              max q.2.count (List.foldr max 0 (rest.map (fun p => p.2.count))) :=
            le_max_right _ _
          nlinarith [h1, h2, h3]

theorem recalc_count (t : ValueEstimator) (maxc : ℕ) (w : ℚ) :
    (t.recalculate_utility maxc w).count = t.count := by
  unfold ValueEstimator.recalculate_utility
  split_ifs <;> rfl

theorem recalc_utility_mem (t : ValueEstimator) (maxc : ℕ) (w : ℚ)
    (hc1 : 1 ≤ t.count) (hcm : t.count ≤ maxc) (hw0 : 0 ≤ w) (hw1 : w ≤ 1) :
    0 ≤ (t.recalculate_utility maxc w).utility ∧
      (t.recalculate_utility maxc w).utility ≤ 1 := by
  unfold ValueEstimator.recalculate_utility
  split_ifs with h
  · have he : (0 : ℝ) < 1 - (w : ℝ) := by
      have hw : (w : ℝ) < 1 := by exact_mod_cast h
      linarith
    have hc1' : (1 : ℝ) ≤ (t.count : ℝ) := by exact_mod_cast hc1
    have hcm' : (t.count : ℝ) ≤ (maxc : ℝ) := by exact_mod_cast hcm
    have hbase1 : (1 : ℝ) < (t.count : ℝ) + 1 := by linarith
    have hbase2 : (1 : ℝ) < (maxc : ℝ) + 1 := by linarith
    have ha : (1 : ℝ) < ((t.count : ℝ) + 1) ^ ((1 : ℝ) - (w : ℝ)) :=
      (Real.one_lt_rpow_iff_of_pos (by linarith)).mpr (Or.inl ⟨hbase1, he⟩)
    have hb : (1 : ℝ) < ((maxc : ℝ) + 1) ^ ((1 : ℝ) - (w : ℝ)) :=
      (Real.one_lt_rpow_iff_of_pos (by linarith)).mpr (Or.inl ⟨hbase2, he⟩)
    have hab : ((t.count : ℝ) + 1) ^ ((1 : ℝ) - (w : ℝ)) ≤
        ((maxc : ℝ) + 1) ^ ((1 : ℝ) - (w : ℝ)) :=
      Real.rpow_le_rpow (by linarith) (by linarith) he.le
    constructor
    · exact div_nonneg (by linarith) (by linarith)
    · rw [div_le_one (by linarith)]
      linarith
  · exact ⟨by norm_num, le_refl 1⟩

theorem weight_formula_mem (b maxc num : ℕ) (hb : 1 ≤ b) (h2 : 2 ≤ num)
    (hmb : maxc ≤ b) (hbmn : b ≤ maxc * num) :
    0 ≤ ((maxc : ℚ) - (b : ℚ) / (num : ℚ)) / ((b : ℚ) - (b : ℚ) / (num : ℚ)) ∧
      ((maxc : ℚ) - (b : ℚ) / (num : ℚ)) / ((b : ℚ) - (b : ℚ) / (num : ℚ)) ≤ 1 := by
  have hq : (1 : ℚ) < (num : ℚ) := by exact_mod_cast h2
  have hq0 : (0 : ℚ) < (num : ℚ) := by linarith
  have hB : (0 : ℚ) < (b : ℚ) := by exact_mod_cast hb
  have hden : (b : ℚ) / (num : ℚ) < (b : ℚ) := div_lt_self hB hq
  have hnum : (b : ℚ) / (num : ℚ) ≤ (maxc : ℚ) := by
    rw [div_le_iff hq0]
    exact_mod_cast hbmn
  have hmb' : (maxc : ℚ) ≤ (b : ℚ) := by exact_mod_cast hmb
  constructor
  · exact div_nonneg (by linarith) (by linarith)
  · rw [div_le_one (by linarith)]
    linarith

theorem keys_length_le (l : List ℕ) (n : ℕ) (hnd : l.Nodup) (hlt : ∀ x ∈ l, x < n) :
    l.length ≤ n := by
  calc l.length = l.toFinset.card := (List.toFinset_card_of_nodup hnd).symm
    _ ≤ (Finset.range n).card :=
        Finset.card_le_card (fun x hx => Finset.mem_range.mpr (hlt x (List.mem_toFinset.mp hx)))
    _ = n := Finset.card_range n

theorem sumCnt_map_recalc (ts : List (ℕ × ValueEstimator)) (maxc : ℕ) (w : ℚ) :
    sumCnt (ts.map (fun p => (p.1, p.2.recalculate_utility maxc w))) = sumCnt ts := by
  simp only [sumCnt, List.map_map]
  rw [List.map_congr_left (fun p _ => by simp [Function.comp, recalc_count] :
    ∀ p ∈ ts, ((fun p => p.2.count) ∘ fun p => (p.1, p.2.recalculate_utility maxc w)) p =
      (fun p => p.2.count) p)]

theorem maxCnt_map_recalc (ts : List (ℕ × ValueEstimator)) (maxc : ℕ) (w : ℚ) :
    maxCnt (ts.map (fun p => (p.1, p.2.recalculate_utility maxc w))) = maxCnt ts := by
  simp only [maxCnt, List.map_map]
  rw [List.map_congr_left (fun p _ => by simp [Function.comp, recalc_count] :
    ∀ p ∈ ts, ((fun p => p.2.count) ∘ fun p => (p.1, p.2.recalculate_utility maxc w)) p =
      (fun p => p.2.count) p)]

theorem keys_map_recalc (ts : List (ℕ × ValueEstimator)) (maxc : ℕ) (w : ℚ) :
    (ts.map (fun p => (p.1, p.2.recalculate_utility maxc w))).map Prod.fst =
      ts.map Prod.fst := by
  simp [List.map_map, Function.comp]

theorem est_update_inv (e : IssueEstimator) (v : ℕ) (hinv : EstInv e)
    (h2 : 2 ≤ e.num_values) (hv : v < e.num_values) :
    ∃ e', e.update v = some e' ∧ EstInv e' ∧ e'.num_values = e.num_values := by
  obtain ⟨e', he'⟩ := update_isSome_of_two_le e v h2
  refine ⟨e', he', ?_, update_num_values _ _ _ he'⟩
  simp only [IssueEstimator.update] at he'
  split_ifs at he' with hg1 hg2
  rw [Option.some.injEq] at he'
  subst he'
  have hnd0 : ((bumpTrackers v e.value_trackers).map Prod.fst).Nodup := by
    rw [bumpTrackers_keys]
    split_ifs with hmem
    · exact hinv.nodup
    · simp [List.nodup_append, hinv.nodup, hmem]
  have hklt0 : ∀ p ∈ bumpTrackers v e.value_trackers, p.1 < e.num_values := by
    intro p hp
    have hkmem : p.1 ∈ (bumpTrackers v e.value_trackers).map Prod.fst :=
      List.mem_map.mpr ⟨p, hp, rfl⟩
    rw [bumpTrackers_keys] at hkmem
    split_ifs at hkmem with hmem
    · obtain ⟨q, hq, hq1⟩ := List.mem_map.mp hkmem
      rw [← hq1]
      exact hinv.keys_lt q hq
    · rcases List.mem_append.mp hkmem with hk | hk
      · obtain ⟨q, hq, hq1⟩ := List.mem_map.mp hk
        rw [← hq1]
        exact hinv.keys_lt q hq
      · rw [List.mem_singleton.mp hk]
        exact hv
  have hcnt0 : sumCnt (bumpTrackers v e.value_trackers) = e.bids_received + 1 := by
    rw [sumCnt_bump, hinv.sum_counts]
  have hpos0 : ∀ p ∈ bumpTrackers v e.value_trackers, 1 ≤ p.2.count :=
    counts_pos_bump v e.value_trackers hinv.counts_pos
  have hmax0 : max (cntOf v (bumpTrackers v e.value_trackers)) e.max_value_count =
      maxCnt (bumpTrackers v e.value_trackers) := by
    rw [cntOf_bump, maxCnt_bump, hinv.maxc_eq]
  have hlen0 : (bumpTrackers v e.value_trackers).length ≤ e.num_values := by
    have := keys_length_le ((bumpTrackers v e.value_trackers).map Prod.fst) e.num_values hnd0
      (fun x hx => by
        obtain ⟨q, hq, hq1⟩ := List.mem_map.mp hx
        rw [← hq1]
        exact hklt0 q hq)
    simpa using this
  have hmaxle : maxCnt (bumpTrackers v e.value_trackers) ≤ e.bids_received + 1 := by
    rw [← hcnt0]
    exact maxCnt_le_sumCnt _
  have hble : e.bids_received + 1 ≤
      maxCnt (bumpTrackers v e.value_trackers) * e.num_values := by
    rw [← hcnt0]
    calc sumCnt (bumpTrackers v e.value_trackers) ≤
        maxCnt (bumpTrackers v e.value_trackers) * (bumpTrackers v e.value_trackers).length :=
          sumCnt_le_maxCnt_mul_length _
      _ ≤ maxCnt (bumpTrackers v e.value_trackers) * e.num_values :=
          Nat.mul_le_mul_left _ hlen0
  have hw := weight_formula_mem (e.bids_received + 1)
    (maxCnt (bumpTrackers v e.value_trackers)) e.num_values (by omega) h2 hmaxle hble
  rw [← hmax0] at hw
  refine ⟨?_, ?_, ?_, ?_, ?_, hw.1, hw.2, ?_⟩
  · rw [keys_map_recalc]
    exact hnd0
  · intro p hp
    obtain ⟨q, hq, rfl⟩ := List.mem_map.mp hp
    rw [recalc_count]
    exact hpos0 q hq
  · rw [sumCnt_map_recalc, hcnt0]
  · rw [maxCnt_map_recalc, hmax0]
  · intro p hp
    obtain ⟨q, hq, rfl⟩ := List.mem_map.mp hp
    exact hklt0 q hq
  · intro p hp
    obtain ⟨q, hq, rfl⟩ := List.mem_map.mp hp
    exact recalc_utility_mem q.2 _ _ (hpos0 q hq)
      (by rw [hmax0]; exact count_le_maxCnt _ q hq) hw.1 hw.2

theorem updateEstimators_inv (bid : Bid) :
    ∀ (ests : List IssueEstimator) (i : ℕ),
      (∀ e ∈ ests, EstInv e) →
      (∀ e ∈ ests, 2 ≤ e.num_values) →
      (∀ j e, ests.get? j = some e → getValue bid (i + j) < e.num_values) →
      ∃ ests', updateEstimators bid ests i = some ests' ∧
        (∀ e ∈ ests', EstInv e) ∧
        ests'.map (fun e => e.num_values) = ests.map (fun e => e.num_values) := by
  intro ests
  induction ests with
  | nil => intro i _ _ _; exact ⟨[], rfl, by simp, rfl⟩
  | cons e rest ih =>
    intro i hinv hok hv
    have hv0 : getValue bid i < e.num_values := by
      have := hv 0 e rfl
      simpa using this
    obtain ⟨e', hupd, hinv', hnum'⟩ :=
      est_update_inv e (getValue bid i) (hinv e (List.mem_cons_self _ _))
        (hok e (List.mem_cons_self _ _)) hv0
    obtain ⟨rest', hrest', hinvr, hnumr⟩ := ih (i + 1)
      (fun x hx => hinv x (List.mem_cons_of_mem _ hx))
      (fun x hx => hok x (List.mem_cons_of_mem _ hx))
      (fun j x hj => by
        have := hv (j + 1) x (by simpa using hj)
        have harith : i + (j + 1) = i + 1 + j := by omega
        rw [harith] at this
        exact this)
    refine ⟨e' :: rest', ?_, ?_, ?_⟩
    · simp only [updateEstimators, hupd, hrest']
    · intro x hx
      rcases List.mem_cons.mp hx with rfl | hx
      · exact hinv'
      · exact hinvr x hx
    · simp [hnum', hnumr]

theorem estInv_init (n : ℕ) : EstInv (IssueEstimator.init n) := by
  refine ⟨by simp [IssueEstimator.init], by simp [IssueEstimator.init],
    by simp [IssueEstimator.init, sumCnt], by simp [IssueEstimator.init, maxCnt],
    by simp [IssueEstimator.init], by simp [IssueEstimator.init],
    by simp [IssueEstimator.init], by simp [IssueEstimator.init]⟩

theorem modelInv_init (sizes : List ℕ) : ModelInv sizes (OpponentModel.init sizes) := by
  constructor
  · simp only [OpponentModel.init, List.map_map]
    rw [List.map_congr_left (fun n _ => by simp [Function.comp, IssueEstimator.init] :
      ∀ n ∈ sizes, ((fun e => e.num_values) ∘ IssueEstimator.init) n = id n)]
    simp
  · intro e he
    simp only [OpponentModel.init] at he
    obtain ⟨n, _, rfl⟩ := List.mem_map.mp he
    exact estInv_init n

theorem model_update_inv (sizes : List ℕ) (m : OpponentModel) (bid : Bid) (ou : Option ℚ)
    (hinv : ModelInv sizes m) (hsz : ∀ n ∈ sizes, 2 ≤ n) (hwf : BidWf sizes bid) :
    ∃ m', m.update bid ou = some m' ∧ ModelInv sizes m' ∧
      m'.issue_estimators.map (fun e => e.num_values) = sizes := by
  obtain ⟨hmap, hests⟩ := hinv
  have hlen : m.issue_estimators.length = sizes.length := by
    rw [← hmap]
    simp
  have hok : ∀ e ∈ m.issue_estimators, 2 ≤ e.num_values := by
    intro e he
    exact hsz e.num_values (hmap ▸ List.mem_map.mpr ⟨e, he, rfl⟩)
  have hv : ∀ j e, m.issue_estimators.get? j = some e →
      getValue bid (0 + j) < e.num_values := by
    intro j e hj
    have hjlen : j < m.issue_estimators.length := List.get?_eq_some.mp hj |>.1
    have hsome : sizes.get? j = some e.num_values := by
      rw [← hmap, List.get?_map, hj]
      rfl
    have := hwf j (by rw [← hlen]; exact hjlen)
    rw [List.getD_eq_get?, hsome] at this
    simpa using this
  obtain ⟨ests', hrun, hinv', hnum'⟩ :=
    updateEstimators_inv bid m.issue_estimators 0 hests hok hv
  simp only [OpponentModel.update, hrun]
  refine ⟨_, rfl, ⟨?_, ?_⟩, ?_⟩
  · rw [hnum', hmap]
  · exact hinv'
  · rw [hnum', hmap]

theorem runModel_inv (sizes : List ℕ) (inputs : List (Bid × Option ℚ)) :
    ∀ m : OpponentModel, ModelInv sizes m → (∀ n ∈ sizes, 2 ≤ n) →
      (∀ p ∈ inputs, BidWf sizes p.1) →
      ∃ m', runModel m inputs = some m' ∧ ModelInv sizes m' := by
  induction inputs with
  | nil => intro m h _ _; exact ⟨m, rfl, h⟩
  | cons p ps ih =>
    intro m h hsz hwf
    obtain ⟨m1, hup, hinv1, _⟩ :=
      model_update_inv sizes m p.1 p.2 h hsz (hwf p (List.mem_cons_self _ _))
    obtain ⟨m', hrun, hinv'⟩ := ih m1 hinv1 hsz
      (fun q hq => hwf q (List.mem_cons_of_mem _ hq))
    exact ⟨m', by simp only [runModel, hup, hrun], hinv'⟩

theorem list_sum_div (l : List ℚ) (t : ℚ) :
    (l.map (fun x => x / t)).sum = l.sum / t := by
  induction l with
  | nil => simp
  | cons x xs ih => simp [ih, add_div]

theorem normalizedWeights_length (m : OpponentModel) :
    (m.normalizedWeights).length = m.issue_estimators.length := by
  simp only [OpponentModel.normalizedWeights]
  split_ifs <;> simp

theorem normalizedWeights_nonneg (m : OpponentModel)
    (hW : ∀ e ∈ m.issue_estimators, 0 ≤ e.weight) :
    ∀ w ∈ m.normalizedWeights, 0 ≤ w := by
  simp only [OpponentModel.normalizedWeights]
  intro w hw
  split_ifs at hw with h
  · obtain ⟨_, _, rfl⟩ := List.mem_map.mp hw
    positivity
  · obtain ⟨x, hx, rfl⟩ := List.mem_map.mp hw
    obtain ⟨e, he, rfl⟩ := List.mem_map.mp hx
    have h0 : 0 ≤ (List.map (fun e => e.weight) m.issue_estimators).sum :=
      List.sum_nonneg (fun x hx => by
        obtain ⟨e', he', rfl⟩ := List.mem_map.mp hx
        exact hW e' he')
    exact div_nonneg (hW e he) h0

theorem normalizedWeights_sum (m : OpponentModel)
    (hlen : 1 ≤ m.issue_estimators.length) :
    (m.normalizedWeights).sum = 1 := by
  simp only [OpponentModel.normalizedWeights]
  split_ifs with h
  · have hne : ((List.map (fun e => e.weight) m.issue_estimators).length : ℚ) ≠ 0 := by
      simp only [List.length_map]
      exact_mod_cast Nat.one_le_iff_ne_zero.mp hlen
    rw [List.map_const']
    rw [List.sum_replicate]
    rw [nsmul_eq_mul]
    field_simp
  · rw [list_sum_div, div_self h]

theorem valueUtilities_length (bid : Bid) :
    ∀ (ests : List IssueEstimator) (i : ℕ), (valueUtilities bid ests i).length = ests.length := by
  intro ests
  induction ests with
  | nil => intro i; rfl
  | cons e rest ih => intro i; simp [valueUtilities, ih]

theorem valueUtilities_mem (bid : Bid) :
    ∀ (ests : List IssueEstimator) (i : ℕ),
      (∀ e ∈ ests, ∀ p ∈ e.value_trackers, 0 ≤ p.2.utility ∧ p.2.utility ≤ 1) →
      ∀ x ∈ valueUtilities bid ests i, 0 ≤ x ∧ x ≤ 1 := by
  intro ests
  induction ests with
  | nil => intro i _ x hx; simp [valueUtilities] at hx
  | cons e rest ih =>
    intro i hU x hx
    simp only [valueUtilities, List.mem_cons] at hx
    rcases hx with rfl | hx
    · unfold IssueEstimator.get_value_utility
      cases hl : lookupTracker (getValue bid i) e.value_trackers with
      | none => norm_num
      | some t =>
        exact hU e (List.mem_cons_self _ _) _ (lookupTracker_mem _ _ _ hl)
    · exact ih (i + 1) (fun e' he' => hU e' (List.mem_cons_of_mem _ he')) x hx

theorem zipWith_sum_bound :
    ∀ (ws : List ℚ) (us : List ℝ), (∀ w ∈ ws, 0 ≤ w) → (∀ x ∈ us, 0 ≤ x ∧ x ≤ 1) →
      0 ≤ (List.zipWith (fun (iw : ℚ) (vu : ℝ) => (iw : ℝ) * vu) ws us).sum ∧
        (List.zipWith (fun (iw : ℚ) (vu : ℝ) => (iw : ℝ) * vu) ws us).sum ≤
          (ws.map (fun w => ((w : ℚ) : ℝ))).sum := by
  intro ws
  induction ws with
  | nil => intro us _ _; simp
  | cons w ws ih =>
    intro us hw hu
    cases us with
    | nil =>
      simp only [List.zipWith_nil_right, List.sum_nil, List.map_cons, List.sum_cons]
      refine ⟨le_refl 0, ?_⟩
      have h0 : (0 : ℝ) ≤ ((w : ℚ) : ℝ) := by
        exact_mod_cast hw w (List.mem_cons_self _ _)
      have h1 : (0 : ℝ) ≤ (List.map (fun w => ((w : ℚ) : ℝ)) ws).sum :=
        List.sum_nonneg (fun x hx => by
          obtain ⟨q, hq, rfl⟩ := List.mem_map.mp hx
          exact_mod_cast hw q (List.mem_cons_of_mem _ hq))
      linarith
    | cons x us =>
      obtain ⟨ih1, ih2⟩ := ih us (fun q hq => hw q (List.mem_cons_of_mem _ hq))
        (fun y hy => hu y (List.mem_cons_of_mem _ hy))
      have hw0 : (0 : ℝ) ≤ ((w : ℚ) : ℝ) := by
        exact_mod_cast hw w (List.mem_cons_self _ _)
      have hx01 := hu x (List.mem_cons_self _ _)
      simp only [List.zipWith_cons_cons, List.sum_cons, List.map_cons]
      constructor
      · have : (0 : ℝ) ≤ ((w : ℚ) : ℝ) * x := mul_nonneg hw0 hx01.1
        linarith
      · have : ((w : ℚ) : ℝ) * x ≤ ((w : ℚ) : ℝ) := mul_le_of_le_one_right hw0 hx01.2
        linarith

theorem get_predicted_utility_mem (m : OpponentModel)
    (hW : ∀ e ∈ m.issue_estimators, 0 ≤ e.weight)
    (hU : ∀ e ∈ m.issue_estimators, ∀ p ∈ e.value_trackers, 0 ≤ p.2.utility ∧ p.2.utility ≤ 1)
    (hlen : 1 ≤ m.issue_estimators.length) (bid : Bid) :
    0 ≤ m.get_predicted_utility bid ∧ m.get_predicted_utility bid ≤ 1 := by
  unfold OpponentModel.get_predicted_utility
  split_ifs with h
  · norm_num
  · have hz := zipWith_sum_bound m.normalizedWeights (valueUtilities bid m.issue_estimators 0)
      (normalizedWeights_nonneg m hW) (valueUtilities_mem bid m.issue_estimators 0 hU)
    refine ⟨hz.1, le_trans hz.2 ?_⟩
    have hcast : ((m.normalizedWeights).map (fun w => ((w : ℚ) : ℝ))).sum =
        (((m.normalizedWeights).sum : ℚ) : ℝ) :=
      (map_list_sum (Rat.castHom ℝ) _).symm
    rw [hcast, normalizedWeights_sum m hlen]
    norm_num

/-- C1: for every domain whose issues all have at least two values and every
sequence of well-formed opponent offers fed through `OpponentModel.update`,
`get_predicted_utility` returns a value in [0,1] for every bid (including
bids with never-observed values); moreover every issue weight stays in
[0,1], every tracked value utility stays in [0,1], and the normalised issue
weights sum to 1 (with an equal split when the total weight is 0). -/
theorem predicted_utility_unit_interval (sizes : List ℕ) (inputs : List (Bid × Option ℚ))
    (hlen : 1 ≤ sizes.length) (hsz : ∀ n ∈ sizes, 2 ≤ n)
    (hwf : ∀ p ∈ inputs, BidWf sizes p.1) :
    ∃ m', runModel (OpponentModel.init sizes) inputs = some m' ∧
      (∀ bid, 0 ≤ m'.get_predicted_utility bid ∧ m'.get_predicted_utility bid ≤ 1) ∧
      (∀ e ∈ m'.issue_estimators, 0 ≤ e.weight ∧ e.weight ≤ 1 ∧
        ∀ p ∈ e.value_trackers, 0 ≤ p.2.utility ∧ p.2.utility ≤ 1) ∧
      m'.normalizedWeights.sum = 1 := by
  obtain ⟨m', hrun, hinv⟩ := runModel_inv sizes inputs _ (modelInv_init sizes) hsz hwf
  have hlen' : 1 ≤ m'.issue_estimators.length := by
    have hl : m'.issue_estimators.length = sizes.length := by
      rw [← hinv.1]
      simp
    omega
  refine ⟨m', hrun, ?_, ?_, normalizedWeights_sum m' hlen'⟩
  · intro bid
    exact get_predicted_utility_mem m' (fun e he => (hinv.2 e he).weight_nonneg)
      (fun e he => (hinv.2 e he).util_mem) hlen' bid
  · intro e he
    exact ⟨(hinv.2 e he).weight_nonneg, (hinv.2 e he).weight_le_one, (hinv.2 e he).util_mem⟩

theorem predicted_utility_unit_interval_witness :
    1 ≤ ([2] : List ℕ).length ∧ (∀ n ∈ ([2] : List ℕ), 2 ≤ n) ∧
      (∀ p ∈ ([([0], none)] : List (Bid × Option ℚ)), BidWf [2] p.1) ∧
      ∃ m', runModel (OpponentModel.init [2]) [([0], none)] = some m' ∧
        (∀ bid, 0 ≤ m'.get_predicted_utility bid ∧ m'.get_predicted_utility bid ≤ 1) ∧
        (∀ e ∈ m'.issue_estimators, 0 ≤ e.weight ∧ e.weight ≤ 1 ∧
          ∀ p ∈ e.value_trackers, 0 ≤ p.2.utility ∧ p.2.utility ≤ 1) ∧
        m'.normalizedWeights.sum = 1 :=
  ⟨by decide, by decide, by decide,
    predicted_utility_unit_interval [2] [([0], none)] (by decide) (by decide) (by decide)⟩
